import Mathlib

/-!
Verification of the marko Markdown parser (frostming/marko) against its
natural-language specification.  Python functions from the repository are
shallowly embedded as Lean functions over `List Char` / `String`; regular
expressions that are parameters of the modelled functions are abstracted
as matcher functions.  Each claim of the specification is settled by a
theorem about these embeddings.

The file is organised as definitions first (the embedding), then theorems.
-/

namespace Marko

/-! ## Definitions

### Newline preprocessing (`marko/helpers.py`, `_preprocess_text`)

`_preprocess_text(text) = text.replace("\r\n", "\n")`.  Python's
`str.replace` scans left to right and replaces non-overlapping
occurrences, which the two-character lookahead recursion below mirrors.
-/

/-- Embedding of Python `text.replace("\r\n", "\n")`: scan left to right,
replacing each non-overlapping occurrence of CR LF by LF. -/
def replaceCRLF : List Char → List Char
  | [] => []
  | [c] => [c]
  | c :: d :: rest =>
    if c = '\r' ∧ d = '\n' then '\n' :: replaceCRLF rest
    else c :: replaceCRLF (d :: rest)

/-- `_preprocess_text` from `marko/helpers.py`. -/
def preprocessText (s : String) : String := String.mk (replaceCRLF s.toList)

/-- Does the character list contain the two-character substring CR LF? -/
def hasCRLF : List Char → Bool
  | [] => false
  | c :: rest => (c = '\r' && rest.head? = some '\n') || hasCRLF rest

/-- Does the character list contain the three-character substring CR CR LF? -/
def hasCRRLF : List Char → Bool
  | [] => false
  | c :: rest =>
    (c = '\r' && rest.head? = some '\r' && rest.tail.head? = some '\n')
      || hasCRRLF rest

/-- `hasCRRLF` lifted to strings. -/
def strHasCRRLF (s : String) : Bool := hasCRRLF s.toList

/-! ### `partition_by_spaces` (`marko/helpers.py`)

The Python function scans the text with an index, remembering the index of
the first separator (`start`) and of the first non-separator following it
(`end`), then slices the text accordingly.  `partitionLoop` embeds the
loop (with `none` standing for the `-1` sentinel), `partitionBySpaces`
the final slicing.
-/

/-- The scanning loop of `partition_by_spaces`: `i` is the current index,
the `Option Nat` argument is the `start` variable (`none` = `-1`).
Returns the final `(start, end)` pair. -/
def partitionLoop (spaces : List Char) : List Char → Nat → Option Nat →
    Option Nat × Option Nat
  | [], _, st => (st, none)
  | c :: rest, i, st =>
    if spaces.contains c then
      match st with
      | some s => partitionLoop spaces rest (i + 1) (some s)
      | none => partitionLoop spaces rest (i + 1) (some i)
    else
      match st with
      | some s => (some s, some i)
      | none => partitionLoop spaces rest (i + 1) none

/-- `partition_by_spaces(text, spaces)` from `marko/helpers.py`:
returns `(start, delimiter, remaining)` slices of `text`. -/
def partitionBySpaces (text : List Char) (spaces : List Char) :
    List Char × List Char × List Char :=
  match partitionLoop spaces text 0 none with
  | (none, _) => (text, [], [])
  | (some st, none) => (text.take st, text.drop st, [])
  | (some st, some en) => (text.take st, (text.drop st).take (en - st), text.drop en)

/-! ### `normalize_label` (`marko/helpers.py`)

`normalize_label(label) = re.sub(r"\s+", " ", label).strip().casefold()`.
The whitespace class of `\s` is abstracted as a predicate `ws` and the
per-character Unicode case folding as a function `cf` into character
sequences.
-/

/-- Embedding of `re.sub(r"\s+", " ", s)`: the flag records whether the
previous character was whitespace, so that each maximal whitespace run
emits exactly one space. -/
def subWsAux (ws : Char → Bool) : Bool → List Char → List Char
  | _, [] => []
  | prevWs, c :: rest =>
    if ws c then
      if prevWs then subWsAux ws true rest
      else ' ' :: subWsAux ws true rest
    else c :: subWsAux ws false rest

/-- `re.sub(r"\s+", " ", s)` with whitespace class `ws`. -/
def subWs (ws : Char → Bool) (l : List Char) : List Char := subWsAux ws false l

/-- Remove trailing whitespace. -/
def stripEnd (ws : Char → Bool) (l : List Char) : List Char :=
  (l.reverse.dropWhile ws).reverse

/-- Python `str.strip()` over the whitespace class `ws`. -/
def pyStrip (ws : Char → Bool) (l : List Char) : List Char :=
  stripEnd ws (l.dropWhile ws)

/-- Python `str.casefold()`: apply the per-character folding `cf`. -/
def caseFoldStr (cf : Char → List Char) (l : List Char) : List Char := l.flatMap cf

/-- `normalize_label` from `marko/helpers.py`. -/
def normalizeLabel (ws : Char → Bool) (cf : Char → List Char) (l : List Char) :
    List Char :=
  caseFoldStr cf (pyStrip ws (subWs ws l))

/-- Spec-side view: split into the maximal whitespace-free words
(like Python `str.split()`). -/
def splitWs (ws : Char → Bool) (l : List Char) : List (List Char) :=
  match h : l.dropWhile ws with
  | [] => []
  | c :: rest =>
    ((c :: rest).takeWhile (fun x => !ws x))
      :: splitWs ws (rest.dropWhile (fun x => !ws x))
termination_by l.length
decreasing_by
  have h1 : (rest.dropWhile (fun x => !ws x)).length ≤ rest.length :=
    (List.dropWhile_sublist _).length_le
  have h2 : (l.dropWhile ws).length ≤ l.length :=
    (List.dropWhile_sublist _).length_le
  rw [h] at h2
  simp only [List.length_cons] at h2
  omega

/-- Spec-side view: join words with single spaces. -/
def joinSpace : List (List Char) → List Char
  | [] => []
  | [w] => w
  | w :: rest => w ++ ' ' :: joinSpace rest

/-- The specification's description of label normalization: collapse each
maximal whitespace run to one space, trim, casefold — equivalently, split
into words, join with single spaces and casefold. -/
def specNormalizeLabel (ws : Char → Bool) (cf : Char → List Char)
    (l : List Char) : List Char :=
  caseFoldStr cf (joinSpace (splitWs ws l))

/-- The ASCII fragment of the whitespace class matched by the regex `\s`. -/
def pyWs (c : Char) : Bool :=
  c = ' ' || c = '\t' || c = '\n' || c = '\r' || c = '\x0b' || c = '\x0c'

/-- The ASCII fragment of Unicode case folding: lower-case ASCII letters. -/
def asciiFold (c : Char) : List Char := [c.toLower]

/-! ### Emphasis delimiters (`marko/inline_parser.py`, `Delimiter`)

Only the fields consulted by `Delimiter.closed_by` are modelled: the run
`content` and the flanking-derived `can_open` / `can_close` flags.
-/

structure Delim where
  content : List Char
  canOpen : Bool
  canClose : Bool
deriving DecidableEq

/-- `Delimiter.closed_by(self, other)` from `marko/inline_parser.py`:
`self` is the candidate opener, `other` the closer.  Python operator
precedence groups the expression as `not (A or (B and C and D))`. -/
def closedBy (self other : Delim) : Bool :=
  !((self.content.head? != other.content.head?)
    || ((self.canOpen && self.canClose || other.canOpen && other.canClose)
        && (self.content.length + other.content.length) % 3 == 0
        && !(self.content.length % 3 == 0 && other.content.length % 3 == 0)))

/-- The compatibility rule exactly as the specification words it: same
marker required, and the rule-of-3 exclusion applies when BOTH ends are
openers-and-closers and neither length is divisible by 3. -/
def specClosedBy (self other : Delim) : Bool :=
  !((self.content.head? != other.content.head?)
    || ((self.canOpen && self.canClose && (other.canOpen && other.canClose))
        && (self.content.length + other.content.length) % 3 == 0
        && !(self.content.length % 3 == 0) && !(other.content.length % 3 == 0)))

/-! ### `HTMLRenderer.escape_html` (`marko/html_renderer.py`)

`escape_html(raw) = html.escape(html.unescape(raw)).replace("&#x27;", "'")`.
`html.escape` (quote=True) is the five sequential single-character
replacements; `html.unescape` scans for matches of the renderer's
overridden `_charref` regex (which requires the closing semicolon) and
resolves each matched reference through the numeric decoding / html5
entity table, abstracted here as `resolve`.
-/

/-- Python `str.replace(needle, repl)` for a single-character needle. -/
def replaceChar (needle : Char) (repl : List Char) (l : List Char) : List Char :=
  l.flatMap fun c => if c = needle then repl else [c]

/-- Python `html.escape(s, quote=True)`: replace `&`, then `<`, `>`, `"`,
and finally `'` by `&#x27;`. -/
def pyHtmlEscape (l : List Char) : List Char :=
  replaceChar '\'' ['&', '#', 'x', '2', '7', ';']
    (replaceChar '"' ['&', 'q', 'u', 'o', 't', ';']
      (replaceChar '>' ['&', 'g', 't', ';']
        (replaceChar '<' ['&', 'l', 't', ';']
          (replaceChar '&' ['&', 'a', 'm', 'p', ';'] l))))

/-- Per-character view of `pyHtmlEscape` (used in proofs). -/
def escHtmlChar (c : Char) : List Char :=
  if c = '&' then ['&', 'a', 'm', 'p', ';']
  else if c = '<' then ['&', 'l', 't', ';']
  else if c = '>' then ['&', 'g', 't', ';']
  else if c = '"' then ['&', 'q', 'u', 'o', 't', ';']
  else if c = '\'' then ['&', '#', 'x', '2', '7', ';']
  else [c]

/-- Characters allowed in a named reference by the overridden `_charref`
regex: anything except tab, newline, form feed, space, `<`, `&`, `#`, `;`. -/
def isCharrefName (c : Char) : Bool :=
  !(c = '\t' || c = '\n' || c = '\x0c' || c = ' ' || c = '<' || c = '&'
    || c = '#' || c = ';')

def isPyHexDigit (c : Char) : Bool :=
  c.isDigit || ('a' ≤ c && c ≤ 'f') || ('A' ≤ c && c ≤ 'F')

/-- Match of the overridden `_charref` pattern immediately after an `&`:
returns the matched group (with its closing semicolon) and the number of
characters consumed, or `none` when the regex does not match. -/
def findCharref (l : List Char) : Option (List Char × Nat) :=
  match l with
  | '#' :: t =>
    match t with
    | c :: t2 =>
      if c = 'x' ∨ c = 'X' then
        let ds := t2.takeWhile isPyHexDigit
        if 1 ≤ ds.length ∧ ds.length ≤ 8 ∧ (t2.drop ds.length).head? = some ';' then
          some ('#' :: c :: (ds ++ [';']), 2 + ds.length + 1)
        else none
      else
        let ds := t.takeWhile Char.isDigit
        if 1 ≤ ds.length ∧ ds.length ≤ 8 ∧ (t.drop ds.length).head? = some ';' then
          some ('#' :: (ds ++ [';']), 1 + ds.length + 1)
        else none
    | [] => none
  | _ =>
    let ds := l.takeWhile isCharrefName
    if 1 ≤ ds.length ∧ ds.length ≤ 32 ∧ (l.drop ds.length).head? = some ';' then
      some (ds ++ [';'], ds.length + 1)
    else none

/-- `html.unescape` under the overridden `_charref`; the fuel argument
(called with the input length) makes the recursion structural. -/
def pyUnescapeF (resolve : List Char → List Char) : Nat → List Char → List Char
  | 0, l => l
  | _ + 1, [] => []
  | fuel + 1, c :: rest =>
    if c = '&' then
      match findCharref rest with
      | some (body, n) => resolve body ++ pyUnescapeF resolve fuel (rest.drop n)
      | none => '&' :: pyUnescapeF resolve fuel rest
    else c :: pyUnescapeF resolve fuel rest

def pyUnescape (resolve : List Char → List Char) (l : List Char) : List Char :=
  pyUnescapeF resolve l.length l

/-- `str.replace("&#x27;", "'")` (fuel-structured scan). -/
def replaceAposF : Nat → List Char → List Char
  | 0, l => l
  | _ + 1, [] => []
  | fuel + 1, c :: rest =>
    if c = '&' ∧ rest.take 5 = ['#', 'x', '2', '7', ';'] then
      '\'' :: replaceAposF fuel (rest.drop 5)
    else c :: replaceAposF fuel rest

def replaceApos (l : List Char) : List Char := replaceAposF l.length l

/-- `HTMLRenderer.escape_html` from `marko/html_renderer.py`. -/
def escapeHtml (resolve : List Char → List Char) (l : List Char) : List Char :=
  replaceApos (pyHtmlEscape (pyUnescape resolve l))

/-- The fragment of the stdlib entity resolution (`html.unescape`'s
numeric decoding and html5 table) needed for concrete evaluation: the
core named entities and the apostrophe references; unknown references
keep the ampersand, as CPython's fallback does. -/
def stdResolve (body : List Char) : List Char :=
  if body = ['l', 't', ';'] then ['<']
  else if body = ['g', 't', ';'] then ['>']
  else if body = ['a', 'm', 'p', ';'] then ['&']
  else if body = ['q', 'u', 'o', 't', ';'] then ['"']
  else if body = ['a', 'p', 'o', 's', ';'] then ['\'']
  else if body = ['#', '3', '9', ';'] then ['\'']
  else if body = ['#', 'x', '2', '7', ';'] then ['\'']
  else '&' :: body

/-- Per-character form of the escape function as the specification
claims it: replace exactly `&`, `<`, `>`, `"` and leave every other
character (including `'`) unchanged. -/
def specEscChar (c : Char) : List Char :=
  if c = '&' then ['&', 'a', 'm', 'p', ';']
  else if c = '<' then ['&', 'l', 't', ';']
  else if c = '>' then ['&', 'g', 't', ';']
  else if c = '"' then ['&', 'q', 'u', 'o', 't', ';']
  else [c]

/-- The escape function as the specification claims it. -/
def specEscapeHtml (l : List Char) : List Char := l.flatMap specEscChar

/-! ### `Markdown.use` / `Markdown.parse` (`marko/__init__.py`)

The mixin lists and extra elements are abstracted as lists of opaque
identifiers (`Nat`); `use` either raises `SetupDone` (modelled as
`Except.error`) or folds the extensions into the registration state;
`parse` runs `_setup_extensions`, which flips `_setup_done`.
-/

structure ExtensionS where
  parserMixins : List Nat
  rendererMixins : List Nat
  elements : List Nat
deriving DecidableEq

structure MarkdownS where
  parserMixins : List Nat
  rendererMixins : List Nat
  extraElements : List Nat
  setupDone : Bool
deriving DecidableEq

/-- The `SetupDone` exception. -/
inductive SetupDoneE
  | mk
deriving DecidableEq

/-- `Markdown.__init__` (without extensions): empty registration lists,
`_setup_done = False`. -/
def initMarkdown : MarkdownS :=
  { parserMixins := [], rendererMixins := [], extraElements := [], setupDone := false }

/-- `Markdown.use(*extensions)`: raises `SetupDone` after setup, otherwise
prepends each extension's mixins and appends its elements. -/
def mdUse (m : MarkdownS) (exts : List ExtensionS) : Except SetupDoneE MarkdownS :=
  if m.setupDone then Except.error SetupDoneE.mk
  else Except.ok (exts.foldl (fun acc e =>
    { acc with
      parserMixins := e.parserMixins ++ acc.parserMixins,
      rendererMixins := e.rendererMixins ++ acc.rendererMixins,
      extraElements := acc.extraElements ++ e.elements }) m)

/-- `Markdown._setup_extensions`: flips `_setup_done` (idempotent). -/
def setupExtensions (m : MarkdownS) : MarkdownS :=
  if m.setupDone then m else { m with setupDone := true }

/-- The state effect of `Markdown.parse`: run `_setup_extensions` first. -/
def mdParseState (m : MarkdownS) : MarkdownS := setupExtensions m

/-! ### `LinkRefDef.parse` (`marko/block.py`)

`parse` normalizes the label and inserts `(dest, title)` into
`Document.link_ref_defs` only when the normalized label is not already
bound.  The Python `dict` (insertion ordered, unique keys) is modelled as
an association list; the label normalization is abstracted as `norm`.
-/

/-- One link reference definition as extracted by `LinkRefDef.match`:
raw label text and the destination/title payload (the title may be
absent). -/
structure LinkDef where
  label : String
  dest : String
  title : Option String
deriving DecidableEq

/-- Lookup in the `link_ref_defs` mapping. -/
def lrdGet (m : List (String × String × Option String)) (k : String) :
    Option (String × Option String) :=
  (m.find? fun e => e.1 == k).map fun e => e.2

/-- The effect of `LinkRefDef.parse` on `Document.link_ref_defs`:
`if normalized_label not in link_ref_defs: link_ref_defs[normalized_label]
= (dest.text, title.text)`. -/
def linkRefDefParse (norm : String → String)
    (m : List (String × String × Option String)) (d : LinkDef) :
    List (String × String × Option String) :=
  if (m.find? fun e => e.1 == norm d.label).isSome then m
  else m ++ [(norm d.label, d.dest, d.title)]

/-- Parsing a document's link reference definitions in order, starting
from the empty mapping. -/
def collectDefs (norm : String → String) (defs : List LinkDef) :
    List (String × String × Option String) :=
  defs.foldl (linkRefDefParse norm) []

/-! ### `List.parse` (`marko/block.py`)

`List.parse` repeatedly matches a `ListItem` or a `BlankLine` until
neither matches; each loop iteration is one event of the trace below.
Only the structure relevant to tightness is modelled for the parsed
elements: blank lines, paragraphs with their `_tight` flag, and anything
else.
-/

inductive BElem where
  | blankLine : BElem
  | paragraph (tight : Bool) : BElem
  | other : BElem
deriving DecidableEq

/-- A parsed list item: its direct children and its `_tight` flag
(`False` on construction). -/
structure ItemE where
  children : List BElem
  tightFlag : Bool
deriving DecidableEq

/-- One iteration of the `List.parse` loop: either a `ListItem` was
matched and parsed (with the given children), or a run of blank lines
was consumed. -/
inductive LEvent where
  | item : List BElem → LEvent
  | blanks : LEvent
deriving DecidableEq

def isItemEv : LEvent → Bool
  | .item _ => true
  | .blanks => false

/-- The loop body of `List.parse` acting on
`(children, tight, has_blank_line)`. -/
def listStep : List ItemE × Bool × Bool → LEvent → List ItemE × Bool × Bool
  | (children, tight, hasBlank), .item cs =>
      (children ++ [⟨cs, false⟩], if hasBlank then false else tight, hasBlank)
  | (children, tight, _), .blanks => (children, tight, true)

def isBlankElem : BElem → Bool
  | .blankLine => true
  | _ => false

/-- Does the item have a `BlankLine` among its direct children? -/
def hasBlankChild (it : ItemE) : Bool := it.children.any isBlankElem

/-- The propagation `child._tight = tight` applied to `Paragraph`
children when the list is tight. -/
def setParaTight : BElem → BElem
  | .paragraph _ => .paragraph true
  | e => e

/-- `List.parse` over an event trace: run the loop, then
`tight = tight and not any(BlankLine in item.children)`, then when tight
propagate `_tight = True` into the items and their paragraphs.  Returns
the final children and the list's `tight` flag. -/
def listParse (evs : List LEvent) : List ItemE × Bool :=
  if (evs.foldl listStep ([], true, false)).2.1
      && !((evs.foldl listStep ([], true, false)).1.any hasBlankChild) then
    ((evs.foldl listStep ([], true, false)).1.map fun it =>
      ⟨it.children.map setParaTight, true⟩, true)
  else
    ((evs.foldl listStep ([], true, false)).1,
     (evs.foldl listStep ([], true, false)).2.1
       && !((evs.foldl listStep ([], true, false)).1.any hasBlankChild))

/-- The items produced by a trace, in order. -/
def itemsOf (evs : List LEvent) : List ItemE :=
  evs.filterMap fun e =>
    match e with
    | .item cs => some ⟨cs, false⟩
    | .blanks => none

def containsItem (evs : List LEvent) : Bool := evs.any isItemEv

/-- Some blank-line run is followed (not necessarily immediately) by an
item. -/
def blankThenItem : List LEvent → Bool
  | [] => false
  | .blanks :: rest => containsItem rest || blankThenItem rest
  | .item _ :: rest => blankThenItem rest

/-- Some blank-line run lies between two items: an item is followed by a
blank-line run which is again followed by an item. -/
def itemBlankItem : List LEvent → Bool
  | [] => false
  | .item _ :: rest => blankThenItem rest || itemBlankItem rest
  | .blanks :: rest => itemBlankItem rest

def isPara : BElem → Bool
  | .paragraph _ => true
  | _ => false

def paraTight : BElem → Bool
  | .paragraph b => b
  | _ => true

/-! ### `Source.match_prefix` (`marko/helpers.py`)

The prefix regex is abstracted as a matcher `pm` returning the end
position of a match at the start of its argument (or `none`).
`expandtabs(4)` is Python's tab expansion to 4-column stops, with the
column reset at newlines and carriage returns.
-/

/-- Python `str.expandtabs(4)` starting at column `col`. -/
def expandTabsFrom (col : Nat) : List Char → List Char
  | [] => []
  | c :: rest =>
    if c = '\t' then
      List.replicate (4 - col % 4) ' ' ++ expandTabsFrom (col + (4 - col % 4)) rest
    else if c = '\n' ∨ c = '\r' then c :: expandTabsFrom 0 rest
    else c :: expandTabsFrom (col + 1) rest

def expandTabs4 (l : List Char) : List Char := expandTabsFrom 0 l

/-- `line.replace("\n", " " * 99 + "\n")` from the secondary check. -/
def replaceNl99 (l : List Char) : List Char :=
  l.flatMap fun c =>
    if c = '\n' then List.replicate 99 ' ' ++ ['\n'] else [c]

/-- The loop `for i in range(1, len(line) + 1): if
len(line[:i].expandtabs(4)) >= pos: return i` followed by `return -1`;
`fuel` is the number of remaining iterations. -/
def matchPrefixLoop (line : List Char) (pos : Nat) : Nat → Nat → Int
  | _, 0 => -1
  | i, fuel + 1 =>
    if pos ≤ (expandTabs4 (line.take i)).length then (i : Int)
    else matchPrefixLoop line pos (i + 1) fuel

/-- `Source.match_prefix(prefix, line)` with the regex matching of the
prefix abstracted as `pm`. -/
def matchPrefix (pm : List Char → Option Nat) (line : List Char) : Int :=
  match pm (expandTabs4 line) with
  | none =>
    if (pm (replaceNl99 (expandTabs4 line))).isSome then (line.length : Int) - 1
    else -1
  | some pos =>
    if pos = 0 then 0
    else matchPrefixLoop line pos 1 line.length

/-! ### `Source` state and `expect_re` / `consume` (`marko/helpers.py`)

The buffer, the cursor `pos`, the anchor, the container state stack and
the stored match slot are modelled; a stored match is its `(start, end)`
span.  The regular expression handed to `expect_re` is abstracted as
`reM : buffer → pos → Option (start, end)`.
-/

/-- A container state: its current line prefix and, when present, the
continuation prefix (`_second_prefix`). -/
structure StateEl where
  pfx : List Char
  secondPfx : Option (List Char)
deriving DecidableEq

structure SourceS where
  buffer : List Char
  pos : Nat
  anchorPos : Nat
  states : List StateEl
  matchSlot : Option (Nat × Nat)
deriving DecidableEq

/-- End position of the match of `(?m)[^\n]*$\n?` at `pos`: the rest of
the current line including its newline when present. -/
def lineEndFrom (buffer : List Char) (pos : Nat) : Nat :=
  pos + ((buffer.drop pos).takeWhile (fun c => c ≠ '\n')).length
    + (if ((buffer.drop pos).takeWhile (fun c => c ≠ '\n')).length
        < (buffer.drop pos).length then 1 else 0)

/-- `Source.next_line(require_prefix=False)`: match the rest of the line
and store the match; returns the matched line and the updated source. -/
def nextLineNoPfx (s : SourceS) : List Char × SourceS :=
  ((s.buffer.drop s.pos).take (lineEndFrom s.buffer s.pos - s.pos),
   { s with matchSlot := some (s.pos, lineEndFrom s.buffer s.pos) })

/-- `Source.expect_re(regexp)`: compute the prefix offset of the current
line via `match_prefix`; when non-negative, test the regex at
`pos + prefix_len` and store the result, otherwise return `None` (the
match slot then still holds the line match set by `next_line`). -/
def expectRe (reM : List Char → Nat → Option (Nat × Nat))
    (pm : List Char → Option Nat) (s : SourceS) :
    Option (Nat × Nat) × SourceS :=
  if 0 ≤ matchPrefix pm (nextLineNoPfx s).1 then
    (reM (nextLineNoPfx s).2.buffer
       ((nextLineNoPfx s).2.pos + (matchPrefix pm (nextLineNoPfx s).1).toNat),
     { (nextLineNoPfx s).2 with
       matchSlot := reM (nextLineNoPfx s).2.buffer
         ((nextLineNoPfx s).2.pos + (matchPrefix pm (nextLineNoPfx s).1).toNat) })
  else (none, (nextLineNoPfx s).2)

/-- `Source._update_prefix`: every state that declares a
`_second_prefix` switches its prefix to it. -/
def updateSecond (sts : List StateEl) : List StateEl :=
  sts.map fun st =>
    match st.secondPfx with
    | some p => { st with pfx := p }
    | none => st

/-- `Source.consume()`: advance `pos` to the stored match's end, update
the state prefixes when the match ended with a newline, and clear the
slot. -/
def consume (s : SourceS) : SourceS :=
  match s.matchSlot with
  | some (st, en) =>
    { s with
      pos := en,
      states :=
        if ((s.buffer.drop st).take (en - st)).getLast? = some '\n' then
          updateSecond s.states
        else s.states,
      matchSlot := none }
  | none => s

/-! ## Theorems -/

theorem take_length_takeWhile (p : Char → Bool) (l : List Char) :
    l.take (l.takeWhile p).length = l.takeWhile p := by
  induction l with
  | nil => rfl
  | cons c t ih =>
    by_cases h : p c
    · simp [List.takeWhile_cons, h, ih]
    · simp [List.takeWhile_cons, h]

theorem drop_length_takeWhile (p : Char → Bool) (l : List Char) :
    l.drop (l.takeWhile p).length = l.dropWhile p := by
  induction l with
  | nil => rfl
  | cons c t ih =>
    by_cases h : p c
    · simp [List.takeWhile_cons, List.dropWhile_cons, h, ih]
    · simp [List.takeWhile_cons, List.dropWhile_cons, h]

theorem replaceCRLF_eq_self (l : List Char) (h : hasCRLF l = false) :
    replaceCRLF l = l := by
  induction l with
  | nil => rfl
  | cons c rest ih =>
    cases rest with
    | nil => rfl
    | cons d t =>
      rw [hasCRLF] at h
      have h1 := (Bool.or_eq_false_iff.mp h).1
      have h2 := (Bool.or_eq_false_iff.mp h).2
      rw [replaceCRLF, if_neg]
      · exact congrArg (c :: ·) (ih h2)
      · rintro ⟨hc, hd⟩
        rw [hc, hd] at h1
        simp at h1

theorem head_replaceCRLF_cons (d : Char) (t : List Char)
    (h : (replaceCRLF (d :: t)).head? = some '\n') :
    d = '\n' ∨ (d = '\r' ∧ t.head? = some '\n') := by
  cases t with
  | nil => simp [replaceCRLF] at h; exact Or.inl h
  | cons e t2 =>
    rw [replaceCRLF] at h
    by_cases hde : d = '\r' ∧ e = '\n'
    · exact Or.inr ⟨hde.1, by simp [hde.2]⟩
    · rw [if_neg hde] at h
      simp at h
      exact Or.inl h

theorem hasCRLF_replaceCRLF : ∀ l : List Char, hasCRRLF l = false →
    hasCRLF (replaceCRLF l) = false
  | [], _ => rfl
  | [c], _ => by simp [replaceCRLF, hasCRLF]
  | c :: d :: t, h => by
    have hrec : hasCRRLF (d :: t) = false := by
      rw [hasCRRLF] at h
      exact (Bool.or_eq_false_iff.mp h).2
    have htail : hasCRRLF t = false := by
      rw [hasCRRLF] at hrec
      exact (Bool.or_eq_false_iff.mp hrec).2
    by_cases hcd : c = '\r' ∧ d = '\n'
    · rw [replaceCRLF, if_pos hcd]
      have ih := hasCRLF_replaceCRLF t htail
      rw [hasCRLF]
      simp only [Bool.or_eq_false_iff]
      refine ⟨by simp, ih⟩
    · rw [replaceCRLF, if_neg hcd]
      have ih := hasCRLF_replaceCRLF (d :: t) hrec
      rw [hasCRLF]
      simp only [Bool.or_eq_false_iff]
      refine ⟨?_, ih⟩
      by_cases hc : c = '\r'
      · subst hc
        -- the head of `replaceCRLF (d :: t)` cannot be a newline here
        cases hhd : (replaceCRLF (d :: t)).head? with
        | none => simp [hhd]
        | some x =>
          by_cases hx : x = '\n'
          · subst hx
            rcases head_replaceCRLF_cons d t hhd with h1 | ⟨h1, h2⟩
            · exact absurd ⟨rfl, h1⟩ hcd
            · exfalso
              subst h1
              rw [hasCRRLF] at h
              simp [h2] at h
          · simp [hhd, hx]
      · simp [hc]

theorem takeWhile_eq_self_of_dropWhile_eq_nil (p : Char → Bool) (l : List Char)
    (h : l.dropWhile p = []) : l.takeWhile p = l := by
  have := List.takeWhile_append_dropWhile p l
  rw [h, List.append_nil] at this
  exact this

theorem head_dropWhile_false (p : Char → Bool) :
    ∀ (l : List Char) (x : Char), (l.dropWhile p).head? = some x → p x = false := by
  intro l
  induction l with
  | nil => intro x h; simp at h
  | cons c t ih =>
    intro x h
    by_cases hc : p c
    · rw [List.dropWhile_cons, if_pos hc] at h
      exact ih x h
    · rw [List.dropWhile_cons, if_neg hc] at h
      simp at h
      rw [← h]
      exact Bool.eq_false_iff.mpr hc

theorem partitionLoop_some (spaces : List Char) :
    ∀ (l : List Char) (i s : Nat),
    partitionLoop spaces l i (some s) =
      (some s,
       if l.dropWhile (fun c => spaces.contains c) = [] then none
       else some (i + (l.takeWhile (fun c => spaces.contains c)).length)) := by
  intro l
  induction l with
  | nil => intro i s; simp [partitionLoop]
  | cons c t ih =>
    intro i s
    rw [partitionLoop]
    by_cases h : spaces.contains c
    · have hm : c ∈ spaces := by simpa using h
      have hd : List.dropWhile (fun c => spaces.contains c) (c :: t)
          = List.dropWhile (fun c => spaces.contains c) t := by
        rw [List.dropWhile_cons]; simp [hm]
      have ht : List.takeWhile (fun c => spaces.contains c) (c :: t)
          = c :: List.takeWhile (fun c => spaces.contains c) t := by
        rw [List.takeWhile_cons]; simp [hm]
      rw [if_pos h, ih, hd, ht]
      split
      · rfl
      · simp only [List.length_cons, Prod.mk.injEq, Option.some.injEq, true_and]
        omega
    · have hm : c ∉ spaces := by simpa using h
      have hd : List.dropWhile (fun c => spaces.contains c) (c :: t) = c :: t := by
        rw [List.dropWhile_cons]; simp [hm]
      have ht : List.takeWhile (fun c => spaces.contains c) (c :: t) = [] := by
        rw [List.takeWhile_cons]; simp [hm]
      rw [if_neg h, hd, ht]
      simp

theorem partitionLoop_none (spaces : List Char) :
    ∀ (l : List Char) (i : Nat),
    partitionLoop spaces l i none =
      (if l.dropWhile (fun c => !(spaces.contains c)) = [] then (none, none)
       else
        (some (i + (l.takeWhile (fun c => !(spaces.contains c))).length),
         if (l.dropWhile (fun c => !(spaces.contains c))).dropWhile
              (fun c => spaces.contains c) = [] then none
         else some (i + (l.takeWhile (fun c => !(spaces.contains c))).length +
            ((l.dropWhile (fun c => !(spaces.contains c))).takeWhile
              (fun c => spaces.contains c)).length))) := by
  intro l
  induction l with
  | nil => intro i; simp [partitionLoop]
  | cons c t ih =>
    intro i
    rw [partitionLoop]
    by_cases h : spaces.contains c
    · have hm : c ∈ spaces := by simpa using h
      have hd1 : List.dropWhile (fun c => !spaces.contains c) (c :: t) = c :: t := by
        rw [List.dropWhile_cons]; simp [hm]
      have ht1 : List.takeWhile (fun c => !spaces.contains c) (c :: t) = [] := by
        rw [List.takeWhile_cons]; simp [hm]
      have hd2 : List.dropWhile (fun c => spaces.contains c) (c :: t)
          = List.dropWhile (fun c => spaces.contains c) t := by
        rw [List.dropWhile_cons]; simp [hm]
      have ht2 : List.takeWhile (fun c => spaces.contains c) (c :: t)
          = c :: List.takeWhile (fun c => spaces.contains c) t := by
        rw [List.takeWhile_cons]; simp [hm]
      rw [if_pos h, partitionLoop_some, hd1, ht1]
      rw [if_neg (List.cons_ne_nil c t), hd2, ht2]
      simp only [List.length_nil, List.length_cons, Nat.add_zero, Prod.mk.injEq,
        true_and]
      split
      · rfl
      · simp only [Option.some.injEq]
        omega
    · have hm : c ∉ spaces := by simpa using h
      have hd1 : List.dropWhile (fun c => !spaces.contains c) (c :: t)
          = List.dropWhile (fun c => !spaces.contains c) t := by
        rw [List.dropWhile_cons]; simp [hm]
      have ht1 : List.takeWhile (fun c => !spaces.contains c) (c :: t)
          = c :: List.takeWhile (fun c => !spaces.contains c) t := by
        rw [List.takeWhile_cons]; simp [hm]
      rw [if_neg h, ih, hd1, ht1]
      split
      · rfl
      · simp only [List.length_cons, Prod.mk.injEq, Option.some.injEq]
        constructor
        · omega
        · split
          · rfl
          · simp only [Option.some.injEq]
            omega

theorem partitionBySpaces_eq (text spaces : List Char) :
    partitionBySpaces text spaces =
      (text.takeWhile (fun c => !spaces.contains c),
       (text.dropWhile (fun c => !spaces.contains c)).takeWhile
         (fun c => spaces.contains c),
       (text.dropWhile (fun c => !spaces.contains c)).dropWhile
         (fun c => spaces.contains c)) := by
  have hval := partitionLoop_none spaces text 0
  simp only [Nat.zero_add] at hval
  rw [partitionBySpaces, hval]
  by_cases hr : text.dropWhile (fun c => !spaces.contains c) = []
  · rw [if_pos hr]
    have hall : text.takeWhile (fun c => !spaces.contains c) = text :=
      takeWhile_eq_self_of_dropWhile_eq_nil _ _ hr
    show (text, ([] : List Char), ([] : List Char)) = _
    rw [hall, hr]
    simp
  · rw [if_neg hr]
    set a := text.takeWhile (fun c => !spaces.contains c) with ha
    set r := text.dropWhile (fun c => !spaces.contains c) with hrdef
    have htake : text.take a.length = a := take_length_takeWhile _ _
    have hdrop : text.drop a.length = r := drop_length_takeWhile _ _
    by_cases hc2 : r.dropWhile (fun c => spaces.contains c) = []
    · rw [if_pos hc2]
      have hrall : r.takeWhile (fun c => spaces.contains c) = r :=
        takeWhile_eq_self_of_dropWhile_eq_nil _ _ hc2
      show (text.take a.length, text.drop a.length, ([] : List Char)) = _
      rw [htake, hdrop, hrall, hc2]
    · rw [if_neg hc2]
      set b := r.takeWhile (fun c => spaces.contains c) with hb
      have hrtake : r.take b.length = b := take_length_takeWhile _ _
      have hrdrop : r.drop b.length = r.dropWhile (fun c => spaces.contains c) :=
        drop_length_takeWhile _ _
      show (text.take a.length,
            (text.drop a.length).take (a.length + b.length - a.length),
            text.drop (a.length + b.length)) = _
      have hsub : a.length + b.length - a.length = b.length := by omega
      have hdrop2 : text.drop (a.length + b.length)
          = r.dropWhile (fun c => spaces.contains c) := by
        rw [← hrdrop, ← hdrop, List.drop_drop]
      rw [htake, hsub, hdrop, hrtake, hdrop2]

/-- C10: `partition_by_spaces(text, spaces)` returns a triple
`(start, delimiter, remaining)` with `start ++ delimiter ++ remaining = text`,
every character of `delimiter` a separator, no character of `start` a
separator, and `delimiter` empty exactly when `text` has no separator. -/
theorem partitionBySpaces_spec (text spaces : List Char) (hne : spaces ≠ []) :
    (partitionBySpaces text spaces).1 ++ (partitionBySpaces text spaces).2.1
        ++ (partitionBySpaces text spaces).2.2 = text ∧
    (∀ c ∈ (partitionBySpaces text spaces).2.1, spaces.contains c = true) ∧
    (∀ c ∈ (partitionBySpaces text spaces).1, spaces.contains c = false) ∧
    ((partitionBySpaces text spaces).2.1 = [] ↔
      ∀ c ∈ text, spaces.contains c = false) := by
  clear hne
  rw [partitionBySpaces_eq]
  set a := text.takeWhile (fun c => !spaces.contains c) with ha
  set r := text.dropWhile (fun c => !spaces.contains c) with hrdef
  set b := r.takeWhile (fun c => spaces.contains c) with hb
  set c2 := r.dropWhile (fun c => spaces.contains c) with hc2def
  have htext : a ++ r = text := List.takeWhile_append_dropWhile _ _
  have hrsplit : b ++ c2 = r := List.takeWhile_append_dropWhile _ _
  have hastart : ∀ c ∈ a, spaces.contains c = false := by
    intro c hc
    have := List.mem_takeWhile_imp (ha ▸ hc)
    simpa using this
  refine ⟨?_, ?_, hastart, ?_⟩
  · rw [List.append_assoc, hrsplit, htext]
  · intro c hc
    exact List.mem_takeWhile_imp (hb ▸ hc)
  · constructor
    · intro hbe
      intro c hc
      rw [← htext] at hc
      rcases List.mem_append.mp hc with h1 | h1
      · exact hastart c h1
      · -- r has an empty separator run at its head, so r must be empty
        cases hq : r with
        | nil =>
          rw [hq] at h1
          simp at h1
        | cons x xs =>
          exfalso
          have hxsep : spaces.contains x = true := by
            have := head_dropWhile_false (fun c => !spaces.contains c) text x
              (by rw [← hrdef, hq]; rfl)
            simpa using this
          have : b = x :: xs.takeWhile (fun c => spaces.contains c) := by
            rw [hb, hq, List.takeWhile_cons, if_pos hxsep]
          rw [show b = [] from hbe] at this
          exact List.noConfusion this
    · intro hall
      cases hq : r with
      | nil => rw [hb, hq]; rfl
      | cons x xs =>
        exfalso
        have hxsep : spaces.contains x = true := by
          have := head_dropWhile_false (fun c => !spaces.contains c) text x
            (by rw [← hrdef, hq]; rfl)
          simpa using this
        have hxmem : x ∈ text := by
          rw [← htext, hq]; simp
        rw [hall x hxmem] at hxsep
        exact Bool.noConfusion hxsep

/-- C10 (witness): the partition specification applied to the concrete
text `"ab  cd"` with the separator set of a space and a tab. -/
theorem partitionBySpaces_spec_witness :
    [' ', '\t'] ≠ ([] : List Char) ∧
      (partitionBySpaces ("ab  cd".toList) [' ', '\t']).1 ++
        (partitionBySpaces ("ab  cd".toList) [' ', '\t']).2.1 ++
        (partitionBySpaces ("ab  cd".toList) [' ', '\t']).2.2 = "ab  cd".toList :=
  ⟨by decide, (partitionBySpaces_spec ("ab  cd".toList) [' ', '\t'] (by decide)).1⟩

theorem subWsAux_true_eq (ws : Char → Bool) :
    ∀ l : List Char, subWsAux ws true l = subWsAux ws false (l.dropWhile ws) := by
  intro l
  induction l with
  | nil => rfl
  | cons c t ih =>
    by_cases h : ws c
    · rw [subWsAux, if_pos h, if_pos rfl, List.dropWhile_cons, if_pos h, ih]
    · rw [subWsAux, if_neg h, List.dropWhile_cons, if_neg h, subWsAux, if_neg h]

theorem subWsAux_append_word (ws : Char → Bool) :
    ∀ (w t : List Char), (∀ c ∈ w, ws c = false) →
      subWsAux ws false (w ++ t) = w ++ subWsAux ws false t := by
  intro w
  induction w with
  | nil => intro t _; rfl
  | cons c w2 ih =>
    intro t hw
    have hc : ws c = false := hw c (by simp)
    rw [List.cons_append, subWsAux, if_neg (by simp [hc])]
    rw [ih t fun x hx => hw x (by simp [hx]), List.cons_append]

theorem subWsAux_true_allWs (ws : Char → Bool) :
    ∀ l : List Char, (∀ c ∈ l, ws c = true) → subWsAux ws true l = [] := by
  intro l
  induction l with
  | nil => intro _; rfl
  | cons c t ih =>
    intro h
    rw [subWsAux, if_pos (h c (by simp)), if_pos rfl]
    exact ih fun x hx => h x (by simp [hx])

theorem dropWhile_append_of_allP (p : Char → Bool) :
    ∀ (a b : List Char), (∀ c ∈ a, p c = true) →
      (a ++ b).dropWhile p = b.dropWhile p := by
  intro a
  induction a with
  | nil => intro b _; rfl
  | cons c a2 ih =>
    intro b h
    rw [List.cons_append, List.dropWhile_cons, if_pos (h c (by simp))]
    exact ih b fun x hx => h x (by simp [hx])

theorem dropWhile_append_of_ne_nil (p : Char → Bool) :
    ∀ (a b : List Char), a.dropWhile p ≠ [] →
      (a ++ b).dropWhile p = a.dropWhile p ++ b := by
  intro a
  induction a with
  | nil => intro b h; exact absurd rfl h
  | cons c a2 ih =>
    intro b h
    by_cases hc : p c
    · rw [List.dropWhile_cons, if_pos hc] at h
      have h2 : List.dropWhile p (c :: a2) = List.dropWhile p a2 := by
        rw [List.dropWhile_cons, if_pos hc]
      rw [List.cons_append, List.dropWhile_cons, if_pos hc, h2]
      exact ih b h
    · rw [List.cons_append, List.dropWhile_cons, if_neg hc]
      rw [List.dropWhile_cons, if_neg hc]
      rfl

theorem dropWhile_eq_self_of_all_false (p : Char → Bool) :
    ∀ l : List Char, (∀ c ∈ l, p c = false) → l.dropWhile p = l := by
  intro l
  induction l with
  | nil => intro _; rfl
  | cons c t _ =>
    intro h
    rw [List.dropWhile_cons, if_neg (by simp [h c (by simp)])]

theorem mem_dropWhile_of_false (p : Char → Bool) (l : List Char) (x : Char)
    (hx : x ∈ l) (hp : p x = false) : x ∈ l.dropWhile p := by
  have := List.takeWhile_append_dropWhile p l
  rw [← this] at hx
  rcases List.mem_append.mp hx with h1 | h1
  · have := List.mem_takeWhile_imp h1
    rw [hp] at this
    exact Bool.noConfusion this
  · exact h1

theorem stripEnd_ne_nil (ws : Char → Bool) (l : List Char) (x : Char)
    (hx : x ∈ l) (hxw : ws x = false) : stripEnd ws l ≠ [] := by
  intro h
  unfold stripEnd at h
  have : l.reverse.dropWhile ws = [] := by
    have := congrArg List.reverse h
    simpa using this
  have hmem : x ∈ l.reverse.dropWhile ws :=
    mem_dropWhile_of_false ws l.reverse x (by simpa using hx) hxw
  rw [this] at hmem
  simp at hmem

theorem stripEnd_append_of_ne_nil (ws : Char → Bool) (x y : List Char)
    (h : stripEnd ws y ≠ []) : stripEnd ws (x ++ y) = x ++ stripEnd ws y := by
  unfold stripEnd at h ⊢
  rw [List.reverse_append]
  rw [dropWhile_append_of_ne_nil ws y.reverse x.reverse (by
    intro hc
    exact h (by rw [hc]; rfl))]
  simp

theorem stripEnd_append_of_allWs (ws : Char → Bool) (x y : List Char)
    (h : ∀ c ∈ y, ws c = true) : stripEnd ws (x ++ y) = stripEnd ws x := by
  unfold stripEnd
  rw [List.reverse_append]
  rw [dropWhile_append_of_allP ws y.reverse x.reverse (by
    intro c hc
    exact h c (by simpa using hc))]

theorem stripEnd_eq_self_of_all_false (ws : Char → Bool) (l : List Char)
    (h : ∀ c ∈ l, ws c = false) : stripEnd ws l = l := by
  unfold stripEnd
  rw [dropWhile_eq_self_of_all_false ws l.reverse (by
    intro c hc
    exact h c (by simpa using hc))]
  simp

theorem dropWhile_idem (p : Char → Bool) (l : List Char) :
    (l.dropWhile p).dropWhile p = l.dropWhile p := by
  induction l with
  | nil => rfl
  | cons c t ih =>
    by_cases h : p c
    · rw [List.dropWhile_cons, if_pos h, ih]
    · rw [List.dropWhile_cons, if_neg h, List.dropWhile_cons, if_neg h]

theorem splitWs_eq_nil (ws : Char → Bool) (l : List Char)
    (h : l.dropWhile ws = []) : splitWs ws l = [] := by
  rw [splitWs, h]

theorem splitWs_eq_cons (ws : Char → Bool) (l : List Char) (c : Char)
    (rest : List Char) (h : l.dropWhile ws = c :: rest) :
    splitWs ws l = ((c :: rest).takeWhile (fun x => !ws x))
      :: splitWs ws (rest.dropWhile (fun x => !ws x)) := by
  rw [splitWs, h]

theorem pyStrip_cons_space (ws : Char → Bool) (hsp : ws ' ' = true)
    (z : List Char) : pyStrip ws (' ' :: z) = pyStrip ws z := by
  unfold pyStrip
  rw [List.dropWhile_cons, if_pos hsp]

theorem subWs_allWs_cons (ws : Char → Bool) (c : Char) (t : List Char)
    (hall : ∀ x ∈ c :: t, ws x = true) : subWs ws (c :: t) = [' '] := by
  rw [subWs, subWsAux, if_pos (hall c (by simp)), if_neg (by simp)]
  rw [subWsAux_true_allWs ws t fun x hx => hall x (by simp [hx])]

theorem pyStrip_word_nonempty (ws : Char → Bool) (c : Char) (w2 : List Char)
    (hall : ∀ x ∈ c :: w2, ws x = false) : pyStrip ws (c :: w2) = c :: w2 := by
  unfold pyStrip
  rw [dropWhile_eq_self_of_all_false ws (c :: w2) hall]
  exact stripEnd_eq_self_of_all_false ws (c :: w2) hall

/-- Key equivalence for `normalize_label`: collapsing whitespace runs and
trimming is the same as splitting into words and joining with single
spaces. -/
theorem pyStrip_subWs_eq_joinSpace (ws : Char → Bool) (hsp : ws ' ' = true) :
    ∀ (n : Nat) (l : List Char), l.length ≤ n →
      pyStrip ws (subWs ws l) = joinSpace (splitWs ws l) := by
  intro n
  induction n with
  | zero =>
    intro l hl
    have hnil : l = [] := List.eq_nil_of_length_eq_zero (Nat.le_zero.mp hl)
    subst hnil
    rw [splitWs_eq_nil ws [] rfl]
    rfl
  | succ n ih =>
    intro l hl
    cases hld : l.dropWhile ws with
    | nil =>
      -- the whole input is whitespace: both sides are empty
      rw [splitWs_eq_nil ws l hld]
      have hall : ∀ c ∈ l, ws c = true := by
        intro c hc
        by_cases h : ws c
        · exact h
        · exfalso
          have hm := mem_dropWhile_of_false ws l c hc (Bool.eq_false_iff.mpr h)
          rw [hld] at hm
          simp at hm
      cases l with
      | nil => rfl
      | cons c t =>
        rw [subWs_allWs_cons ws c t hall, pyStrip_cons_space ws hsp]
        rfl
    | cons c rest =>
      have hcw : ws c = false := head_dropWhile_false ws l c (by rw [hld]; rfl)
      have hm : l.takeWhile ws ++ (c :: rest) = l := by
        rw [← hld]; exact List.takeWhile_append_dropWhile ws l
      -- step 1: strip the leading whitespace from the left-hand side
      have hLHS : pyStrip ws (subWs ws l) = pyStrip ws (subWs ws (c :: rest)) := by
        cases ha : l.takeWhile ws with
        | nil =>
          conv_lhs => rw [← hm, ha, List.nil_append]
        | cons a0 a2 =>
          have hallA : ∀ x ∈ l.takeWhile ws, ws x = true :=
            fun x hx => List.mem_takeWhile_imp hx
          have h1 : subWs ws ((a0 :: a2) ++ (c :: rest))
              = ' ' :: subWs ws (c :: rest) := by
            rw [List.cons_append, subWs, subWsAux,
              if_pos (hallA a0 (by rw [ha]; simp)), if_neg (by simp),
              subWsAux_true_eq,
              dropWhile_append_of_allP ws a2 (c :: rest)
                (fun x hx => hallA x (by rw [ha]; simp [hx])),
              List.dropWhile_cons, if_neg (by simp [hcw])]
            rfl
          conv_lhs => rw [← hm, ha]
          rw [h1, pyStrip_cons_space ws hsp]
      rw [hLHS, splitWs_eq_cons ws l c rest hld]
      -- decompose the word at the front
      have hwz : (c :: rest).takeWhile (fun x => !ws x)
          ++ rest.dropWhile (fun x => !ws x) = c :: rest := by
        have h0 : (c :: rest).dropWhile (fun x => !ws x)
            = rest.dropWhile (fun x => !ws x) := by
          rw [List.dropWhile_cons, if_pos (by simp [hcw])]
        rw [← h0]
        exact List.takeWhile_append_dropWhile _ _
      have hw : (c :: rest).takeWhile (fun x => !ws x)
          = c :: rest.takeWhile (fun x => !ws x) := by
        rw [List.takeWhile_cons, if_pos (by simp [hcw])]
      have hwAll : ∀ x ∈ (c :: rest).takeWhile (fun x => !ws x), ws x = false := by
        intro x hx
        have := List.mem_takeWhile_imp hx
        simpa using this
      have hsub : subWs ws (c :: rest)
          = (c :: rest).takeWhile (fun x => !ws x)
            ++ subWs ws (rest.dropWhile (fun x => !ws x)) := by
        conv_lhs => rw [← hwz]
        exact subWsAux_append_word ws _ _ hwAll
      have hrestlen : rest.length ≤ n := by
        have h5 : (c :: rest).length ≤ l.length := by
          rw [← hld]; exact (List.dropWhile_sublist _).length_le
        simp only [List.length_cons] at h5
        omega
      cases hzd : (rest.dropWhile (fun x => !ws x)).dropWhile ws with
      | nil =>
        -- no word after the first: the tail is all whitespace
        rw [splitWs_eq_nil ws _ hzd]
        have hallZ : ∀ x ∈ rest.dropWhile (fun x => !ws x), ws x = true := by
          intro x hx
          by_cases h : ws x
          · exact h
          · exfalso
            have hm2 := mem_dropWhile_of_false ws _ x hx (Bool.eq_false_iff.mpr h)
            rw [hzd] at hm2
            simp at hm2
        cases hz : rest.dropWhile (fun x => !ws x) with
        | nil =>
          rw [hsub, hz]
          show pyStrip ws ((c :: rest).takeWhile (fun x => !ws x) ++ []) = _
          rw [List.append_nil, hw]
          rw [pyStrip_word_nonempty ws c _ (by rw [← hw]; exact hwAll)]
          rfl
        | cons z0 z2 =>
          rw [hsub, hz]
          rw [subWs_allWs_cons ws z0 z2 (by rw [← hz]; exact hallZ)]
          -- pyStrip (w ++ [' ']) = w
          unfold pyStrip
          have hself : List.dropWhile ws
              ((c :: rest).takeWhile (fun x => !ws x) ++ [' '])
              = (c :: rest).takeWhile (fun x => !ws x) ++ [' '] := by
            rw [hw, List.cons_append, List.dropWhile_cons, if_neg (by simp [hcw])]
          rw [hself]
          rw [stripEnd_append_of_allWs ws _ [' ']
            (by intro x hx; simp at hx; rw [hx]; exact hsp)]
          rw [stripEnd_eq_self_of_all_false ws _ hwAll]
          rfl
      | cons d zrest =>
        -- a further word begins with d
        have hdw : ws d = false :=
          head_dropWhile_false ws _ d (by rw [hzd]; rfl)
        -- the separating run is non-empty: the tail starts with whitespace
        obtain ⟨z0, z2, hz⟩ : ∃ z0 z2,
            rest.dropWhile (fun x => !ws x) = z0 :: z2 := by
          cases hq : rest.dropWhile (fun x => !ws x) with
          | nil => rw [hq] at hzd; simp at hzd
          | cons z0 z2 => exact ⟨z0, z2, rfl⟩
        have hz0 : ws z0 = true := by
          have := head_dropWhile_false (fun x => !ws x) rest z0 (by rw [hz]; rfl)
          simpa using this
        have hsubz : subWs ws (rest.dropWhile (fun x => !ws x))
            = ' ' :: subWs ws (d :: zrest) := by
          rw [hz, subWs, subWsAux, if_pos hz0, if_neg (by simp), subWsAux_true_eq]
          have : z2.dropWhile ws = d :: zrest := by
            rw [← hzd, hz, List.dropWhile_cons, if_pos hz0]
          rw [this]
          rfl
        have hlen2 : (d :: zrest).length ≤ n := by
          have h6 : (d :: zrest).length ≤ (rest.dropWhile (fun x => !ws x)).length := by
            rw [← hzd]; exact (List.dropWhile_sublist _).length_le
          have h7 : (rest.dropWhile (fun x => !ws x)).length ≤ rest.length :=
            (List.dropWhile_sublist _).length_le
          omega
        have ihm := ih (d :: zrest) hlen2
        rw [hsub, hsubz]
        -- left side: pyStrip (w ++ ' ' :: X) = w ++ ' ' :: pyStrip X
        have hX : subWs ws (d :: zrest) = d :: subWsAux ws false zrest := by
          rw [subWs, subWsAux, if_neg (by simp [hdw])]
        have hXstrip : stripEnd ws (subWs ws (d :: zrest)) ≠ [] := by
          apply stripEnd_ne_nil ws _ d _ hdw
          rw [hX]; simp
        have hdrop1 : List.dropWhile ws ((c :: rest).takeWhile (fun x => !ws x)
              ++ ' ' :: subWs ws (d :: zrest))
            = (c :: rest).takeWhile (fun x => !ws x)
              ++ ' ' :: subWs ws (d :: zrest) := by
          rw [hw, List.cons_append, List.dropWhile_cons, if_neg (by simp [hcw])]
        have hdrop2 : List.dropWhile ws (subWs ws (d :: zrest))
            = subWs ws (d :: zrest) := by
          rw [hX, List.dropWhile_cons, if_neg (by simp [hdw])]
        have hLHS2 : pyStrip ws ((c :: rest).takeWhile (fun x => !ws x)
              ++ ' ' :: subWs ws (d :: zrest))
            = (c :: rest).takeWhile (fun x => !ws x)
              ++ ' ' :: pyStrip ws (subWs ws (d :: zrest)) := by
          unfold pyStrip
          rw [hdrop1, hdrop2]
          have hassoc : (c :: rest).takeWhile (fun x => !ws x)
                ++ ' ' :: subWs ws (d :: zrest)
              = ((c :: rest).takeWhile (fun x => !ws x) ++ [' '])
                ++ subWs ws (d :: zrest) := by
            rw [List.append_assoc]
            rfl
          rw [hassoc, stripEnd_append_of_ne_nil ws _ _ hXstrip, List.append_assoc]
          rfl
        rw [hLHS2]
        -- right side: splitWs of the separator-run tail
        have hws2 : splitWs ws (rest.dropWhile (fun x => !ws x))
            = splitWs ws (d :: zrest) := by
          rw [splitWs_eq_cons ws _ d zrest hzd,
            splitWs_eq_cons ws (d :: zrest) d zrest
              (by rw [List.dropWhile_cons, if_neg (by simp [hdw])])]
        rw [hws2, splitWs_eq_cons ws (d :: zrest) d zrest
          (by rw [List.dropWhile_cons, if_neg (by simp [hdw])])]
        rw [joinSpace]
        · rw [ihm, splitWs_eq_cons ws (d :: zrest) d zrest
            (by rw [List.dropWhile_cons, if_neg (by simp [hdw])])]
        · simp

theorem pyUnescapeF_no_amp (resolve : List Char → List Char) :
    ∀ (fuel : Nat) (l : List Char), l.length ≤ fuel → '&' ∉ l →
      pyUnescapeF resolve fuel l = l := by
  intro fuel
  induction fuel with
  | zero => intro l _ _; rfl
  | succ f ih =>
    intro l hl hmem
    cases l with
    | nil => rfl
    | cons c rest =>
      have hcne : ¬c = '&' := by
        intro h
        subst h
        exact hmem (List.mem_cons_self '&' rest)
      rw [pyUnescapeF, if_neg hcne]
      congr 1
      exact ih rest (by simp at hl; omega) (fun h => hmem (List.mem_cons_of_mem c h))

theorem pyUnescape_no_amp (resolve : List Char → List Char) (l : List Char)
    (h : '&' ∉ l) : pyUnescape resolve l = l :=
  pyUnescapeF_no_amp resolve l.length l (Nat.le_refl _) h

theorem pyHtmlEscape_append (a b : List Char) :
    pyHtmlEscape (a ++ b) = pyHtmlEscape a ++ pyHtmlEscape b := by
  simp [pyHtmlEscape, replaceChar, List.flatMap_append]

theorem pyHtmlEscape_singleton (c : Char) : pyHtmlEscape [c] = escHtmlChar c := by
  by_cases h1 : c = '&'
  · subst h1; decide
  by_cases h2 : c = '<'
  · subst h2; decide
  by_cases h3 : c = '>'
  · subst h3; decide
  by_cases h4 : c = '"'
  · subst h4; decide
  by_cases h5 : c = '\''
  · subst h5; decide
  simp [pyHtmlEscape, replaceChar, escHtmlChar, h1, h2, h3, h4, h5]

theorem pyHtmlEscape_eq_flatMap (l : List Char) :
    pyHtmlEscape l = l.flatMap escHtmlChar := by
  induction l with
  | nil => rfl
  | cons c t ih =>
    have hsplit : c :: t = [c] ++ t := rfl
    rw [hsplit, pyHtmlEscape_append, pyHtmlEscape_singleton, ih,
      List.flatMap_append]
    simp

theorem replaceAposF_step_ne (f : Nat) (c : Char) (rest : List Char)
    (h : c ≠ '&') : replaceAposF (f + 1) (c :: rest) = c :: replaceAposF f rest := by
  rw [replaceAposF, if_neg]
  rintro ⟨hc, _⟩
  exact h hc

theorem replaceAposF_step_amp (f : Nat) (d : Char) (rest : List Char)
    (hd : d ≠ '#') :
    replaceAposF (f + 1) ('&' :: d :: rest) = '&' :: replaceAposF f (d :: rest) := by
  rw [replaceAposF, if_neg]
  rintro ⟨_, hbad⟩
  rw [List.take_succ_cons] at hbad
  simp only [List.cons.injEq] at hbad
  exact hd hbad.1

theorem replaceAposF_escape :
    ∀ (l : List Char) (fuel : Nat),
      (l.flatMap escHtmlChar).length ≤ fuel → '&' ∉ l →
      replaceAposF fuel (l.flatMap escHtmlChar) = specEscapeHtml l := by
  intro l
  induction l with
  | nil =>
    intro fuel _ _
    cases fuel <;> rfl
  | cons c t ih =>
    intro fuel hf hmem
    have hc : c ≠ '&' := fun h => hmem (h ▸ List.mem_cons_self c t)
    have hmt : '&' ∉ t := fun h => hmem (List.mem_cons_of_mem c h)
    rw [List.flatMap_cons] at hf ⊢
    rw [specEscapeHtml, List.flatMap_cons]
    by_cases h2 : c = '<'
    · subst h2
      rw [show escHtmlChar '<' = ['&', 'l', 't', ';'] from by decide] at hf ⊢
      rw [show specEscChar '<' = ['&', 'l', 't', ';'] from by decide]
      simp only [List.length_append, List.length_cons, List.length_nil] at hf
      obtain ⟨f, rfl⟩ : ∃ f, fuel = f + 4 := ⟨fuel - 4, by omega⟩
      show replaceAposF (f + 4) ('&' :: 'l' :: 't' :: ';' :: t.flatMap escHtmlChar) = _
      rw [replaceAposF_step_amp (f + 3) 'l' _ (by decide),
        replaceAposF_step_ne (f + 2) 'l' _ (by decide),
        replaceAposF_step_ne (f + 1) 't' _ (by decide),
        replaceAposF_step_ne f ';' _ (by decide),
        ih f (by omega) hmt]
      rfl
    by_cases h3 : c = '>'
    · subst h3
      rw [show escHtmlChar '>' = ['&', 'g', 't', ';'] from by decide] at hf ⊢
      rw [show specEscChar '>' = ['&', 'g', 't', ';'] from by decide]
      simp only [List.length_append, List.length_cons, List.length_nil] at hf
      obtain ⟨f, rfl⟩ : ∃ f, fuel = f + 4 := ⟨fuel - 4, by omega⟩
      show replaceAposF (f + 4) ('&' :: 'g' :: 't' :: ';' :: t.flatMap escHtmlChar) = _
      rw [replaceAposF_step_amp (f + 3) 'g' _ (by decide),
        replaceAposF_step_ne (f + 2) 'g' _ (by decide),
        replaceAposF_step_ne (f + 1) 't' _ (by decide),
        replaceAposF_step_ne f ';' _ (by decide),
        ih f (by omega) hmt]
      rfl
    by_cases h4 : c = '"'
    · subst h4
      rw [show escHtmlChar '"' = ['&', 'q', 'u', 'o', 't', ';'] from by decide] at hf ⊢
      rw [show specEscChar '"' = ['&', 'q', 'u', 'o', 't', ';'] from by decide]
      simp only [List.length_append, List.length_cons, List.length_nil] at hf
      obtain ⟨f, rfl⟩ : ∃ f, fuel = f + 6 := ⟨fuel - 6, by omega⟩
      show replaceAposF (f + 6)
        ('&' :: 'q' :: 'u' :: 'o' :: 't' :: ';' :: t.flatMap escHtmlChar) = _
      rw [replaceAposF_step_amp (f + 5) 'q' _ (by decide),
        replaceAposF_step_ne (f + 4) 'q' _ (by decide),
        replaceAposF_step_ne (f + 3) 'u' _ (by decide),
        replaceAposF_step_ne (f + 2) 'o' _ (by decide),
        replaceAposF_step_ne (f + 1) 't' _ (by decide),
        replaceAposF_step_ne f ';' _ (by decide),
        ih f (by omega) hmt]
      rfl
    by_cases h5 : c = '\''
    · subst h5
      rw [show escHtmlChar '\'' = ['&', '#', 'x', '2', '7', ';'] from by decide] at hf ⊢
      rw [show specEscChar '\'' = ['\''] from by decide]
      simp only [List.length_append, List.length_cons, List.length_nil] at hf
      obtain ⟨f, rfl⟩ : ∃ f, fuel = f + 6 := ⟨fuel - 6, by omega⟩
      show replaceAposF (f + 6)
        ('&' :: '#' :: 'x' :: '2' :: '7' :: ';' :: t.flatMap escHtmlChar) = _
      rw [replaceAposF, if_pos ⟨rfl, rfl⟩]
      show '\'' :: replaceAposF (f + 5) (t.flatMap escHtmlChar) = _
      rw [ih (f + 5) (by omega) hmt]
      rfl
    · have he : escHtmlChar c = [c] := by
        simp [escHtmlChar, hc, h2, h3, h4, h5]
      have hs : specEscChar c = [c] := by
        simp [specEscChar, hc, h2, h3, h4]
      rw [he] at hf ⊢
      rw [hs]
      simp only [List.length_append, List.length_cons, List.length_nil] at hf
      obtain ⟨f, rfl⟩ : ∃ f, fuel = f + 1 := ⟨fuel - 1, by omega⟩
      show replaceAposF (f + 1) (c :: t.flatMap escHtmlChar) = _
      rw [replaceAposF_step_ne f c _ hc, ih f (by omega) hmt]
      rfl

/-- C4 (counterexample): `escape_html` first decodes character
references, so on the input `"&lt;"` it returns `"&lt;"`, while the
claimed behaviour (replace the four characters, leave everything else)
would produce `"&amp;lt;"`. -/
theorem escapeHtml_counterexample :
    escapeHtml stdResolve ("&lt;".toList) = "&lt;".toList ∧
    specEscapeHtml ("&lt;".toList) = "&amp;lt;".toList ∧
    escapeHtml stdResolve ("&lt;".toList) ≠ specEscapeHtml ("&lt;".toList) := by
  decide

/-- C4 (amended): on every string without an ampersand (hence without
character references) `escape_html` behaves exactly as claimed: `&`, `<`,
`>`, `"` are entity-encoded, `'` and all other characters are left
unchanged.  On strings containing character references the function first
decodes them (`html.unescape`) and then escapes, as the counterexample
shows. -/
theorem escapeHtml_no_amp (resolve : List Char → List Char) (l : List Char)
    (h : '&' ∉ l) : escapeHtml resolve l = specEscapeHtml l := by
  unfold escapeHtml
  rw [pyUnescape_no_amp resolve l h, pyHtmlEscape_eq_flatMap]
  exact replaceAposF_escape l _ (Nat.le_refl _) h

/-- C4 (witness): the amended theorem at the concrete input `a<b"c'`. -/
theorem escapeHtml_no_amp_witness :
    '&' ∉ ("a<b\"c'".toList) ∧
      escapeHtml stdResolve ("a<b\"c'".toList)
        = specEscapeHtml ("a<b\"c'".toList) :=
  ⟨by decide, escapeHtml_no_amp stdResolve ("a<b\"c'".toList) (by decide)⟩

/-- C5 (counterexample): an opener run `*` that can both open and close
against a closer run `**` that can only close: the lengths sum to 3 and
neither is divisible by 3.  Under the specification's rule (which requires
BOTH ends to be openers-and-closers) they may match, but `closed_by`
returns `False` because the code applies the exclusion when EITHER end is
an opener-and-closer. -/
theorem closedBy_counterexample :
    specClosedBy ⟨['*'], true, true⟩ ⟨['*', '*'], false, true⟩ = true ∧
      closedBy ⟨['*'], true, true⟩ ⟨['*', '*'], false, true⟩ = false := by
  decide

/-- C5 (amended): `closed_by` returns `False` exactly when the markers
differ, or when AT LEAST ONE of the two runs can both open and close, the
sum of the lengths is divisible by 3, and not both lengths are divisible
by 3 (equivalently, neither is, given the sum is).  In particular the
claim's first sentence holds: a closer is never matched to an opener when
both runs can open and close, the sum of lengths is divisible by 3 and
neither length is. -/
theorem closedBy_spec (d o : Delim) :
    (closedBy d o = false ↔
      (d.content.head? ≠ o.content.head? ∨
        (((d.canOpen = true ∧ d.canClose = true) ∨
            (o.canOpen = true ∧ o.canClose = true)) ∧
          (d.content.length + o.content.length) % 3 = 0 ∧
          ¬(d.content.length % 3 = 0 ∧ o.content.length % 3 = 0)))) ∧
    (d.canOpen = true → d.canClose = true → o.canOpen = true →
      o.canClose = true → (d.content.length + o.content.length) % 3 = 0 →
      d.content.length % 3 ≠ 0 → o.content.length % 3 ≠ 0 →
      closedBy d o = false) := by
  constructor
  · unfold closedBy
    simp only [Bool.not_eq_false', Bool.or_eq_true, bne_iff_ne, ne_eq,
      Bool.and_eq_true, beq_iff_eq, Bool.not_eq_true']
    constructor
    · intro h
      rcases h with h | ⟨⟨hoc, hsum⟩, hnot⟩
      · exact Or.inl h
      · refine Or.inr ⟨?_, hsum, ?_⟩
        · rcases hoc with h1 | h1
          · exact Or.inl ⟨h1.1, h1.2⟩
          · exact Or.inr ⟨h1.1, h1.2⟩
        · intro ⟨ha, hb⟩
          rw [ha, hb] at hnot
          simp at hnot
    · intro h
      rcases h with h | ⟨hoc, hsum, hnot⟩
      · exact Or.inl h
      · refine Or.inr ⟨⟨?_, hsum⟩, ?_⟩
        · rcases hoc with h1 | h1
          · exact Or.inl ⟨h1.1, h1.2⟩
          · exact Or.inr ⟨h1.1, h1.2⟩
        · simp only [Bool.and_eq_false_iff]
          by_cases ha : d.content.length % 3 = 0
          · by_cases hb : o.content.length % 3 = 0
            · exact absurd ⟨ha, hb⟩ hnot
            · exact Or.inr (by simp [hb])
          · exact Or.inl (by simp [ha])
  · intro h1 h2 h3 h4 hsum ha _
    unfold closedBy
    simp only [Bool.not_eq_false', Bool.or_eq_true, Bool.and_eq_true, beq_iff_eq,
      Bool.not_eq_true']
    refine Or.inr ⟨⟨Or.inl ⟨h1, h2⟩, hsum⟩, ?_⟩
    simp only [Bool.and_eq_false_iff]
    exact Or.inl (by simp [ha])

/-- C5 (witness): the amended theorem's implication applied to two runs
`*` and `**` that can both open and close. -/
theorem closedBy_spec_witness :
    (⟨['*'], true, true⟩ : Delim).canOpen = true ∧
      (1 + 2) % 3 = 0 ∧
      closedBy ⟨['*'], true, true⟩ ⟨['*', '*'], true, true⟩ = false :=
  ⟨rfl, by decide,
    (closedBy_spec ⟨['*'], true, true⟩ ⟨['*', '*'], true, true⟩).2
      rfl rfl rfl rfl (by decide) (by decide) (by decide)⟩

/-- C3: `use` before the first parse succeeds and registers the
extension's mixins and elements; once `parse` has run (setup done) every
further `use` raises `SetupDone` and registers nothing. -/
theorem mdUse_spec (m : MarkdownS) (e : ExtensionS) (exts : List ExtensionS) :
    (m.setupDone = false →
      mdUse m [e] = Except.ok
        { m with
          parserMixins := e.parserMixins ++ m.parserMixins,
          rendererMixins := e.rendererMixins ++ m.rendererMixins,
          extraElements := m.extraElements ++ e.elements }) ∧
    (mdUse initMarkdown exts).isOk = true ∧
    mdUse (mdParseState m) exts = Except.error SetupDoneE.mk ∧
    (mdParseState m).setupDone = true := by
  refine ⟨?_, ?_, ?_, ?_⟩
  · intro h
    simp [mdUse, h]
  · simp [mdUse, initMarkdown, Except.isOk, Except.toBool]
  · have hdone : (mdParseState m).setupDone = true := by
      by_cases hm : m.setupDone <;> simp [mdParseState, setupExtensions, hm]
    simp [mdUse, hdone]
  · by_cases hm : m.setupDone <;> simp [mdParseState, setupExtensions, hm]

/-- C3 (witness): registration before parse at a concrete extension. -/
theorem mdUse_spec_witness :
    initMarkdown.setupDone = false ∧
      mdUse initMarkdown [⟨[1], [2], [3]⟩]
        = Except.ok
          { initMarkdown with
            parserMixins := [1] ++ initMarkdown.parserMixins,
            rendererMixins := [2] ++ initMarkdown.rendererMixins,
            extraElements := initMarkdown.extraElements ++ [3] } :=
  ⟨rfl, (mdUse_spec initMarkdown ⟨[1], [2], [3]⟩ []).1 rfl⟩

/-- C7: `normalize_label` collapses every maximal whitespace run to a
single space, strips leading and trailing whitespace and casefolds the
result — stated as the equivalence with the split-into-words /
join-with-single-spaces / casefold description, together with the
specification's concrete examples `"Foo Bar"` and `"foo\n\tbar"`, both
normalizing to `"foo bar"`. -/
theorem normalizeLabel_spec :
    (∀ (ws : Char → Bool) (cf : Char → List Char), ws ' ' = true →
      ∀ l : List Char, normalizeLabel ws cf l = specNormalizeLabel ws cf l) ∧
    normalizeLabel pyWs asciiFold ("Foo Bar".toList) = "foo bar".toList ∧
    normalizeLabel pyWs asciiFold ("foo\n\tbar".toList) = "foo bar".toList := by
  refine ⟨?_, by decide, by decide⟩
  intro ws cf hsp l
  unfold normalizeLabel specNormalizeLabel
  rw [pyStrip_subWs_eq_joinSpace ws hsp l.length l (Nat.le_refl _)]

/-- C7 (witness): the equivalence applied to the whitespace class `pyWs`
(which contains the space) at the concrete label `"x  y"`. -/
theorem normalizeLabel_spec_witness :
    pyWs ' ' = true ∧
      normalizeLabel pyWs asciiFold ("x  y".toList)
        = specNormalizeLabel pyWs asciiFold ("x  y".toList) :=
  ⟨by decide, normalizeLabel_spec.1 pyWs asciiFold (by decide) ("x  y".toList)⟩

theorem lrdGet_append (m1 m2 : List (String × String × Option String))
    (k : String) : lrdGet (m1 ++ m2) k = (lrdGet m1 k).or (lrdGet m2 k) := by
  unfold lrdGet
  rw [List.find?_append]
  cases m1.find? fun e => e.1 == k <;> simp

theorem collectAux (norm : String → String) :
    ∀ (defs : List LinkDef) (acc : List (String × String × Option String))
      (k : String),
      lrdGet (defs.foldl (linkRefDefParse norm) acc) k =
        (lrdGet acc k).or
          ((defs.find? fun d => norm d.label == k).map fun d => (d.dest, d.title)) := by
  intro defs
  induction defs with
  | nil =>
    intro acc k
    simp [List.foldl_nil]
  | cons d rest ih =>
    intro acc k
    rw [List.foldl_cons, ih]
    by_cases hk : (norm d.label == k) = true
    · have hkeq : norm d.label = k := by simpa using hk
      by_cases hacc : (lrdGet acc k).isSome
      · have hstay : linkRefDefParse norm acc d = acc := by
          unfold linkRefDefParse
          rw [if_pos]
          rw [hkeq]
          unfold lrdGet at hacc
          simpa using hacc
        rw [hstay]
        obtain ⟨v, hv⟩ := Option.isSome_iff_exists.mp hacc
        have hfc : (List.find? (fun d => norm d.label == k) (d :: rest))
            = some d := List.find?_cons_of_pos rest hk
        rw [hv, hfc]
        simp
      · have hnone : lrdGet acc k = none := by
          cases hq : lrdGet acc k with
          | none => rfl
          | some v => rw [hq] at hacc; simp at hacc
        have hfind : (acc.find? fun e => e.1 == norm d.label) = none := by
          rw [hkeq]
          unfold lrdGet at hnone
          cases hq : acc.find? fun e => e.1 == k with
          | none => rfl
          | some v => rw [hq] at hnone; simp at hnone
        have happ : linkRefDefParse norm acc d
            = acc ++ [(norm d.label, d.dest, d.title)] := by
          unfold linkRefDefParse
          rw [if_neg (by simp [hfind])]
        rw [happ, lrdGet_append, hnone]
        have hone : lrdGet [(norm d.label, d.dest, d.title)] k
            = some (d.dest, d.title) := by
          unfold lrdGet
          rw [hkeq]
          simp [List.find?]
        have hfc : (List.find? (fun d => norm d.label == k) (d :: rest))
            = some d := List.find?_cons_of_pos rest hk
        rw [hone, hfc]
        simp
    · have hp2 : lrdGet (linkRefDefParse norm acc d) k = lrdGet acc k := by
        unfold linkRefDefParse
        split
        · rfl
        · rw [lrdGet_append]
          have hone : lrdGet [(norm d.label, d.dest, d.title)] k = none := by
            unfold lrdGet
            simp only [List.find?]
            rw [show ((norm d.label, d.dest, d.title).1 == k) = false from by
              simpa using hk]
            rfl
          rw [hone]
          cases lrdGet acc k <;> rfl
      have hfc : (List.find? (fun d => norm d.label == k) (d :: rest))
          = List.find? (fun d => norm d.label == k) rest :=
        List.find?_cons_of_neg rest (by simpa using hk)
      rw [hp2, hfc]

/-- C2: `Document.link_ref_defs` is first-seen-wins: after parsing a
sequence of link reference definitions, each normalized label is bound to
the destination/title of the FIRST definition carrying it;
`LinkRefDef.parse` never overwrites an existing binding, and a definition
whose normalized label is already bound leaves the mapping unchanged. -/
theorem linkRefDefs_first_wins (norm : String → String) :
    (∀ (defs : List LinkDef) (k : String),
      lrdGet (collectDefs norm defs) k
        = (defs.find? fun d => norm d.label == k).map fun d => (d.dest, d.title)) ∧
    (∀ (m : List (String × String × Option String)) (d : LinkDef) (k : String)
        (v : String × Option String),
      lrdGet m k = some v → lrdGet (linkRefDefParse norm m d) k = some v) ∧
    (∀ (m : List (String × String × Option String)) (d : LinkDef),
      (m.find? fun e => e.1 == norm d.label).isSome = true →
      linkRefDefParse norm m d = m) := by
  refine ⟨?_, ?_, ?_⟩
  · intro defs k
    rw [collectDefs, collectAux norm defs [] k]
    simp [lrdGet]
  · intro m d k v hv
    unfold linkRefDefParse
    split
    · exact hv
    · rw [lrdGet_append, hv]
      rfl
  · intro m d h
    unfold linkRefDefParse
    rw [if_pos h]

/-- C2 (witness): a second definition of label `"a"` does not overwrite
the first binding. -/
theorem linkRefDefs_first_wins_witness :
    lrdGet [("a", "u1", none)] "a" = some ("u1", none) ∧
      lrdGet (linkRefDefParse (fun s => s) [("a", "u1", none)]
        ⟨"a", "u2", some "t"⟩) "a" = some ("u1", none) :=
  ⟨by decide,
    (linkRefDefs_first_wins (fun s => s)).2.1 [("a", "u1", none)]
      ⟨"a", "u2", some "t"⟩ "a" ("u1", none) (by decide)⟩

theorem foldl_listStep_children :
    ∀ (evs : List LEvent) (ch : List ItemE) (t hb : Bool),
      (evs.foldl listStep (ch, t, hb)).1 = ch ++ itemsOf evs := by
  intro evs
  induction evs with
  | nil => intro ch t hb; simp [itemsOf]
  | cons e rest ih =>
    intro ch t hb
    cases e with
    | item cs =>
      rw [List.foldl_cons]
      show (rest.foldl listStep (ch ++ [⟨cs, false⟩],
        if hb then false else t, hb)).1 = _
      rw [ih]
      simp [itemsOf]
    | blanks =>
      rw [List.foldl_cons]
      show (rest.foldl listStep (ch, t, true)).1 = _
      rw [ih]
      simp [itemsOf]

theorem foldl_listStep_tight :
    ∀ (evs : List LEvent) (ch : List ItemE) (t hb : Bool),
      (evs.foldl listStep (ch, t, hb)).2.1
        = (t && !(hb && containsItem evs || blankThenItem evs)) := by
  intro evs
  induction evs with
  | nil => intro ch t hb; simp [containsItem, blankThenItem]
  | cons e rest ih =>
    intro ch t hb
    cases e with
    | item cs =>
      rw [List.foldl_cons]
      show (rest.foldl listStep (ch ++ [⟨cs, false⟩],
        if hb then false else t, hb)).2.1 = _
      rw [ih]
      have hci : containsItem (LEvent.item cs :: rest) = true := by
        simp [containsItem, isItemEv]
      have hbt : blankThenItem (LEvent.item cs :: rest) = blankThenItem rest := rfl
      rw [hci, hbt]
      cases hb <;> cases t <;> simp
    | blanks =>
      rw [List.foldl_cons]
      show (rest.foldl listStep (ch, t, true)).2.1 = _
      rw [ih]
      have hci : containsItem (LEvent.blanks :: rest) = containsItem rest := by
        simp [containsItem, isItemEv]
      have hbt : blankThenItem (LEvent.blanks :: rest)
          = (containsItem rest || blankThenItem rest) := rfl
      rw [hci, hbt]
      cases hb <;> cases t <;>
        cases hciv : containsItem rest <;>
        cases hbiv : blankThenItem rest <;> simp

theorem ibi_imp_bti : ∀ evs : List LEvent,
    itemBlankItem evs = true → blankThenItem evs = true := by
  intro evs
  induction evs with
  | nil => intro h; exact absurd h (by simp [itemBlankItem])
  | cons e rest ih =>
    intro h
    cases e with
    | item cs =>
      rw [itemBlankItem] at h
      rw [blankThenItem]
      cases hb : blankThenItem rest
      · rw [hb] at h
        simp at h
        exact hb ▸ ih h
      · rfl
    | blanks =>
      rw [itemBlankItem] at h
      rw [blankThenItem]
      simp [ih h]

theorem bti_eq_ibi_of_head_item (cs : List BElem) (rest : List LEvent) :
    blankThenItem (.item cs :: rest) = itemBlankItem (.item cs :: rest) := by
  rw [blankThenItem, itemBlankItem]
  cases hb : blankThenItem rest
  · cases hi : itemBlankItem rest
    · simp
    · exact absurd (ibi_imp_bti rest hi) (by simp [hb])
  · simp

/-- C1: a parsed list is tight exactly when no blank-line run was
consumed between two items and no item has a blank line among its direct
children; and when tight, every paragraph that is a direct child of an
item carries `_tight = true`.  The trace hypothesis says the `List.parse`
loop starts with a list item, which holds because `List.parse` is only
entered right after `List.match` succeeded on the opening item. -/
theorem listParse_tight_spec (evs : List LEvent)
    (hhead : ∀ e, evs.head? = some e → isItemEv e = true) :
    ((listParse evs).2 = true ↔
      (itemBlankItem evs = false ∧
        ∀ it ∈ itemsOf evs, hasBlankChild it = false)) ∧
    ((listParse evs).2 = true →
      ∀ it ∈ (listParse evs).1, it.tightFlag = true ∧
        ∀ c ∈ it.children, isPara c = true → paraTight c = true) := by
  have hcond : ((evs.foldl listStep ([], true, false)).2.1
        && !((evs.foldl listStep ([], true, false)).1.any hasBlankChild))
      = (!(blankThenItem evs) && !((itemsOf evs).any hasBlankChild)) := by
    rw [foldl_listStep_tight evs [] true false,
      foldl_listStep_children evs [] true false]
    simp
  have hsnd : (listParse evs).2
      = (!(blankThenItem evs) && !((itemsOf evs).any hasBlankChild)) := by
    unfold listParse
    rw [hcond]
    split
    · rename_i hX
      exact hX.symm
    · rfl
  constructor
  · rw [hsnd]
    simp only [Bool.and_eq_true, Bool.not_eq_true']
    constructor
    · rintro ⟨h1, h2⟩
      refine ⟨?_, ?_⟩
      · cases hib : itemBlankItem evs
        · rfl
        · exact absurd (ibi_imp_bti evs hib) (by simp [h1])
      · intro it hit
        have := List.any_eq_false.mp h2 it hit
        exact Bool.eq_false_iff.mpr this
    · rintro ⟨h1, h2⟩
      refine ⟨?_, ?_⟩
      · cases evs with
        | nil => rfl
        | cons e rest =>
          have he := hhead e rfl
          cases e with
          | item cs =>
            rw [bti_eq_ibi_of_head_item cs rest]
            exact h1
          | blanks => exact absurd he (by simp [isItemEv])
      · rw [List.any_eq_false]
        intro it hit
        simp [h2 it hit]
  · intro htight it hit
    have hX : ((evs.foldl listStep ([], true, false)).2.1
          && !((evs.foldl listStep ([], true, false)).1.any hasBlankChild))
        = true := by
      rw [hcond, ← hsnd]
      exact htight
    rw [listParse, if_pos hX] at hit
    simp only [List.mem_map] at hit
    obtain ⟨it0, _, rfl⟩ := hit
    refine ⟨rfl, ?_⟩
    intro c hc
    simp only [List.mem_map] at hc
    obtain ⟨c0, _, rfl⟩ := hc
    cases c0 <;> simp [setParaTight, isPara, paraTight]

/-- C1 (witness): the loose trace item–blanks–item, whose head is an
item. -/
theorem listParse_tight_spec_witness :
    ((listParse [LEvent.item [BElem.paragraph false], LEvent.blanks,
        LEvent.item [BElem.other]]).2 = true ↔
      (itemBlankItem [LEvent.item [BElem.paragraph false], LEvent.blanks,
          LEvent.item [BElem.other]] = false ∧
        ∀ it ∈ itemsOf [LEvent.item [BElem.paragraph false], LEvent.blanks,
            LEvent.item [BElem.other]], hasBlankChild it = false)) :=
  (listParse_tight_spec
    [LEvent.item [BElem.paragraph false], LEvent.blanks,
      LEvent.item [BElem.other]]
    (by
      intro e he
      simp only [List.head?_cons, Option.some.injEq] at he
      subst he
      rfl)).1

/-- C6 (counterexample): the claimed idempotence of `_preprocess_text`
fails on the input `"\r\r\n"`: one application yields `"\r\n"`, a second
application yields `"\n"`. -/
theorem preprocessText_not_idempotent :
    preprocessText (preprocessText "\r\r\n") ≠ preprocessText "\r\r\n" := by
  decide

/-- C6 (amended): `_preprocess_text` is idempotent on every string that
does not contain the substring `"\r\r\n"` (for such inputs the first
application removes every CR LF without creating a new one). -/
theorem preprocessText_idempotent (s : String) (h : strHasCRRLF s = false) :
    preprocessText (preprocessText s) = preprocessText s := by
  unfold preprocessText
  exact congrArg String.mk
    (replaceCRLF_eq_self _ (hasCRLF_replaceCRLF s.toList h))

/-- C6 (witness): the amended idempotence theorem applied to the concrete
input `"a\r\nb"`. -/
theorem preprocessText_idempotent_witness :
    strHasCRRLF "a\r\nb" = false ∧
      preprocessText (preprocessText "a\r\nb") = preprocessText "a\r\nb" :=
  ⟨by decide, preprocessText_idempotent "a\r\nb" (by decide)⟩

theorem matchPrefixLoop_spec (line : List Char) (pos : Nat) :
    ∀ (fuel i : Nat), 1 ≤ i → i + fuel = line.length + 1 →
      pos ≤ (expandTabs4 line).length → pos ≠ 0 →
      (∀ j, 1 ≤ j → j < i → (expandTabs4 (line.take j)).length < pos) →
      ∃ k : Nat, matchPrefixLoop line pos i fuel = (k : Int) ∧ i ≤ k ∧
        k ≤ line.length ∧ pos ≤ (expandTabs4 (line.take k)).length ∧
        ∀ j, 1 ≤ j → j < k → (expandTabs4 (line.take j)).length < pos := by
  intro fuel
  induction fuel with
  | zero =>
    intro i h1 h2 h3 h4 h5
    exfalso
    have hlen : 1 ≤ line.length := by
      by_contra hc
      have hz : line.length = 0 := by omega
      have hnil : line = [] := List.eq_nil_of_length_eq_zero hz
      rw [hnil] at h3
      simp [expandTabs4, expandTabsFrom] at h3
      omega
    have hfull := h5 line.length hlen (by omega)
    rw [List.take_length] at hfull
    omega
  | succ f ih =>
    intro i h1 h2 h3 h4 h5
    rw [matchPrefixLoop]
    by_cases hp : pos ≤ (expandTabs4 (line.take i)).length
    · rw [if_pos hp]
      exact ⟨i, rfl, Nat.le_refl i, by omega, hp, h5⟩
    · rw [if_neg hp]
      have hile : i ≤ line.length := by
        by_contra hc
        have htk : line.take i = line := List.take_of_length_le (by omega)
        rw [htk] at hp
        exact hp h3
      have hmin : ∀ j, 1 ≤ j → j < i + 1 →
          (expandTabs4 (line.take j)).length < pos := by
        intro j hj1 hj2
        by_cases hji : j < i
        · exact h5 j hj1 hji
        · have hje : j = i := by omega
          subst hje
          exact Nat.not_le.mp hp
      obtain ⟨k, hk1, hk2, hk3, hk4, hk5⟩ :=
        ih (i + 1) (by omega) (by omega) h3 h4 hmin
      exact ⟨k, hk1, by omega, hk3, hk4, hk5⟩

/-- C8: when the (abstracted) prefix regex matches the tab-expanded line
with end position `e`, `match_prefix` returns `0` for `e = 0` and
otherwise the smallest index `i` with `1 ≤ i ≤ len(line)` whose
tab-expanded prefix has length `≥ e`; when the regex does not match, the
result is `len(line) - 1` if the secondary check (99 spaces inserted
before each newline) matches, and `-1` otherwise. -/
theorem matchPrefix_spec (pm : List Char → Option Nat) (line : List Char) :
    (∀ e, pm (expandTabs4 line) = some e → e ≤ (expandTabs4 line).length →
      (e = 0 → matchPrefix pm line = 0) ∧
      (e ≠ 0 → ∃ i : Nat, matchPrefix pm line = (i : Int) ∧ 1 ≤ i ∧
        i ≤ line.length ∧ e ≤ (expandTabs4 (line.take i)).length ∧
        ∀ j, 1 ≤ j → j < i → (expandTabs4 (line.take j)).length < e)) ∧
    (pm (expandTabs4 line) = none →
      matchPrefix pm line =
        if (pm (replaceNl99 (expandTabs4 line))).isSome then
          (line.length : Int) - 1
        else -1) := by
  constructor
  · intro e he hle
    have hmp : matchPrefix pm line
        = if e = 0 then 0 else matchPrefixLoop line e 1 line.length := by
      unfold matchPrefix
      rw [he]
    constructor
    · intro h0
      rw [hmp, if_pos h0]
    · intro hne
      rw [hmp, if_neg hne]
      obtain ⟨k, hk1, _, hk3, hk4, hk5⟩ :=
        matchPrefixLoop_spec line e line.length 1 (Nat.le_refl 1) (by omega)
          hle hne (by intro j hj1 hj2; omega)
      refine ⟨k, hk1, ?_, hk3, hk4, hk5⟩
      omega
  · intro hnone
    unfold matchPrefix
    rw [hnone]

/-- C8 (witness): the prefix `"  "` (two spaces, match end 2) on the line
`"  ab"`: the returned offset is the smallest index whose expansion
reaches column 2. -/
theorem matchPrefix_spec_witness :
    (fun s : List Char => if s.take 2 = [' ', ' '] then some 2 else none)
        (expandTabs4 ("  ab".toList)) = some 2 ∧
      (2 : Nat) ≤ (expandTabs4 ("  ab".toList)).length ∧
      (2 : Nat) ≠ 0 ∧
      ∃ i : Nat,
        matchPrefix
            (fun s : List Char => if s.take 2 = [' ', ' '] then some 2 else none)
            ("  ab".toList) = (i : Int) ∧
          1 ≤ i ∧ i ≤ ("  ab".toList).length ∧
          2 ≤ (expandTabs4 (("  ab".toList).take i)).length ∧
          ∀ j, 1 ≤ j → j < i →
            (expandTabs4 (("  ab".toList).take j)).length < 2 :=
  ⟨by decide, by decide, by decide,
    ((matchPrefix_spec
        (fun s : List Char => if s.take 2 = [' ', ' '] then some 2 else none)
        ("  ab".toList)).1 2 (by decide) (by decide)).2 (by decide)⟩

/-- C9: `expect_re` leaves `pos`, the state stack, the buffer and the
anchor unchanged — only the stored match slot is updated — and `consume`
is what moves `pos`, to the stored match's end. -/
theorem expectRe_frame (reM : List Char → Nat → Option (Nat × Nat))
    (pm : List Char → Option Nat) (s : SourceS) :
    ((expectRe reM pm s).2.pos = s.pos ∧
     (expectRe reM pm s).2.states = s.states ∧
     (expectRe reM pm s).2.buffer = s.buffer ∧
     (expectRe reM pm s).2.anchorPos = s.anchorPos) ∧
    (∀ st en, s.matchSlot = some (st, en) → (consume s).pos = en) := by
  constructor
  · unfold expectRe
    split <;> (unfold nextLineNoPfx; simp)
  · intro st en h
    unfold consume
    rw [h]

/-- C9 (witness): consuming a stored match `(0, 3)` moves the position
to 3. -/
theorem expectRe_frame_witness :
    (⟨"ab\nc".toList, 0, 0, [], some (0, 3)⟩ : SourceS).matchSlot
        = some (0, 3) ∧
      (consume ⟨"ab\nc".toList, 0, 0, [], some (0, 3)⟩).pos = 3 :=
  ⟨rfl,
    (expectRe_frame (fun _ _ => none) (fun _ => none)
      ⟨"ab\nc".toList, 0, 0, [], some (0, 3)⟩).2 0 3 rfl⟩

end Marko
